import Mathlib

set_option allowUnsafeReducibility true

attribute [semireducible] Rat.mul Rat.inv Rat.add Rat.sub Rat.div Rat.neg Rat.blt

/-!
Verification development for GOSTnets `load_traffic.py`
(`OSM_to_network`): a shallow embedding of the topological correction
engine (`get_all_intersections_and_create_nodes`), the traffic attribute
merge (`apply_traffic_speeds_to_roads_raw`) and the `line_length` helper,
together with theorems settling the specification claims.

Coordinates are exact rationals.  Every edge geometry produced by
`fetch_roads_w_traffic` is a two point LineString (`load_traffic.py`
line 239: `edge = LineString([osm_coords_from, osm_coords_to])`), so edge
geometries are embedded as straight segments (`Seg`).  The external
geometric operations from the shapely library (`intersects`,
`intersection`, `shapely.ops.split`) and the rtree index are embedded by
their exact behaviour on such segments.
-/

namespace GOSTnets

/-- A 2D point with rational coordinates (a shapely `Point`). -/
structure Pt where
  x : ℚ
  y : ℚ
deriving DecidableEq, Repr

/-- An axis-aligned bounding box, as the 4-tuple `(minx, miny, maxx, maxy)`
returned by shapely `.bounds`. -/
structure Box where
  minx : ℚ
  miny : ℚ
  maxx : ℚ
  maxy : ℚ
deriving DecidableEq, Repr

/-- A two point LineString: the only edge geometry this pipeline creates
(`load_traffic.py` line 239). -/
structure Seg where
  a : Pt
  b : Pt
deriving DecidableEq, Repr

/-- Bounding box of a segment (`line.bounds` in shapely). -/
def Seg.bounds (s : Seg) : Box :=
  ⟨min s.a.x s.b.x, min s.a.y s.b.y, max s.a.x s.b.x, max s.a.y s.b.y⟩

/-- Degenerate bounding box of a point (`inter.bounds` / `pt.bounds`). -/
def Pt.bounds (p : Pt) : Box :=
  ⟨p.x, p.y, p.x, p.y⟩

/-- Closed-interval overlap test between two boxes: the criterion used by
both the GeoPandas sindex and the rtree index for range queries. -/
def boxesIntersect (u v : Box) : Bool :=
  decide (u.minx ≤ v.maxx) && decide (v.minx ≤ u.maxx) &&
  decide (u.miny ≤ v.maxy) && decide (v.miny ≤ u.maxy)

/-- A point hits a query box iff its degenerate bounds overlap the box. -/
def ptInBox (p : Pt) (b : Box) : Bool :=
  boxesIntersect p.bounds b

/-- Result of intersecting two segments, mirroring the shapely geometry
types the code dispatches on at `load_traffic.py` lines 444-453: a single
`Point`, or a `LineString` (collinear overlap, which the code ignores), or
empty.  For two straight segments shapely never returns a `MultiPoint`,
so that branch of the source is unreachable here. -/
inductive InterRes where
  | empty : InterRes
  | point : Pt → InterRes
  | lineOverlap : InterRes
deriving DecidableEq, Repr

/-- Exact intersection of two segments (`line.intersection(line2)`). -/
def segInter (s1 s2 : Seg) : InterRes :=
  let rx := s1.b.x - s1.a.x
  let ry := s1.b.y - s1.a.y
  let sx := s2.b.x - s2.a.x
  let sy := s2.b.y - s2.a.y
  let qpx := s2.a.x - s1.a.x
  let qpy := s2.a.y - s1.a.y
  let rxs := rx * sy - ry * sx
  if rxs ≠ 0 then
    let t := (qpx * sy - qpy * sx) / rxs
    let u := (qpx * ry - qpy * rx) / rxs
    if 0 ≤ t ∧ t ≤ 1 ∧ 0 ≤ u ∧ u ≤ 1 then
      .point ⟨s1.a.x + t * rx, s1.a.y + t * ry⟩
    else .empty
  else if qpx * ry - qpy * rx ≠ 0 then .empty
  else if rx = 0 ∧ ry = 0 then
    (if sx = 0 ∧ sy = 0 then
      (if s1.a = s2.a then .point s1.a else .empty)
    else
      let w := ((s1.a.x - s2.a.x) * sx + (s1.a.y - s2.a.y) * sy) / (sx * sx + sy * sy)
      if (s1.a.x - s2.a.x) * sy - (s1.a.y - s2.a.y) * sx = 0 ∧ 0 ≤ w ∧ w ≤ 1 then
        .point s1.a
      else .empty)
  else
    let rr := rx * rx + ry * ry
    let t0 := (qpx * rx + qpy * ry) / rr
    let t1 := ((s2.b.x - s1.a.x) * rx + (s2.b.y - s1.a.y) * ry) / rr
    let lo := max 0 (min t0 t1)
    let hi := min 1 (max t0 t1)
    if hi < lo then .empty
    else if lo = hi then .point ⟨s1.a.x + lo * rx, s1.a.y + lo * ry⟩
    else .lineOverlap

/-- Parameter `t ∈ (0,1)` of a point strictly interior to a segment, when
the point lies exactly on the segment; `none` otherwise.  Only such points
cut the line in `shapely.ops.split`. -/
def interiorParam (s : Seg) (p : Pt) : Option ℚ :=
  let rx := s.b.x - s.a.x
  let ry := s.b.y - s.a.y
  if rx = 0 ∧ ry = 0 then none
  else
    let t := ((p.x - s.a.x) * rx + (p.y - s.a.y) * ry) / (rx * rx + ry * ry)
    if (p.x - s.a.x) * ry - (p.y - s.a.y) * rx = 0 ∧ 0 < t ∧ t < 1 ∧
        p.x = s.a.x + t * rx ∧ p.y = s.a.y + t * ry then
      some t
    else none

/-- Insert a parameter into a sorted list, skipping duplicates. -/
def insortNodup (t : ℚ) : List ℚ → List ℚ
  | [] => [t]
  | x :: xs =>
    if t < x then t :: x :: xs
    else if t = x then x :: xs
    else x :: insortNodup t xs

/-- Fold step collecting one candidate split point's parameter. -/
def insPt (s : Seg) (acc : List ℚ) (p : Pt) : List ℚ :=
  match interiorParam s p with
  | some t => insortNodup t acc
  | none => acc

/-- Sorted, duplicate-free list of the interior split parameters that the
points of `pts` induce on `s`. -/
def sortedParams (s : Seg) (pts : List Pt) : List ℚ :=
  pts.foldl (insPt s) []

/-- Point of a segment at parameter `t`. -/
def paramPt (s : Seg) (t : ℚ) : Pt :=
  ⟨s.a.x + t * (s.b.x - s.a.x), s.a.y + t * (s.b.y - s.a.y)⟩

/-- Consecutive-pair decomposition of a vertex chain into segments. -/
def pairSegs : List Pt → List Seg
  | p :: q :: rest => ⟨p, q⟩ :: pairSegs (q :: rest)
  | _ => []

/-- Embedding of `shapely.ops.split(line, MultiPoint(hits))` for a straight
segment: cut at every distinct point of `hits` lying strictly inside the
segment, returning the ordered pieces (the whole segment when nothing
cuts it). -/
def splitSeg (s : Seg) (pts : List Pt) : List Seg :=
  pairSegs ([s.a] ++ (sortedParams s pts).map (paramPt s) ++ [s.b])

/-- One row of the `roads_raw` GeoDataFrame as it enters
`get_all_intersections_and_create_nodes`: the columns read at
`load_traffic.py` lines 416-423. -/
structure Row where
  stnode : Nat
  endnode : Nat
  osm_id : Nat
  infra_type : String
  geometry : Seg
  min_speed : Option ℚ
  max_speed : Option ℚ
  mean_speed : Option ℚ
deriving DecidableEq, Repr

/-- Python `str` of a natural number, as a character list. -/
def pyStr (n : Nat) : List Char :=
  Nat.toDigits 10 n

/-- Python `int`/`np.int64` of a digit string (the int64 range is not
modelled; all ids in the claims are far below it). -/
def digitsToNat (l : List Char) : Nat :=
  l.foldl (fun n c => 10 * n + (c.toNat - 48)) 0

/-- Synthetic node id (`load_traffic.py` line 504):
`np.int64(str(99) + str(stnode)[4:] + str(endnode)[:4])`. -/
def new_node_id (stnode endnode : Nat) : Nat :=
  digitsToNat (pyStr 99 ++ (pyStr stnode).drop 4 ++ (pyStr endnode).take 4)

/-- Emission loop over the non-first split pieces (`load_traffic.py`
lines 542-581): `nid` is the synthetic id that the previous piece ended at
(the current `stnode`); each non-last piece increments it, registers a node
at the piece's end coordinate and emits an edge, and the last piece closes
the chain at the original `endnode` carried in `r`. -/
def emitRest (r : Row) : Nat → List Seg → List Row × List (Nat × Pt)
  | _, [] => ([], [])
  | nid, [x] => ([{ r with stnode := nid, geometry := x }], [])
  | nid, x :: y :: rest =>
    let nid2 := nid + 1
    let prev := emitRest r nid2 (y :: rest)
    ({ r with stnode := nid, endnode := nid2, geometry := x } :: prev.1,
     (nid2, x.b) :: prev.2)

/-- Emission loop over all split pieces of one edge (`load_traffic.py`
lines 483-582): a single piece is re-emitted with the original endpoints;
otherwise the first piece derives a fresh synthetic id from the original
endpoint ids and the rest of the chain increments it. -/
def emitRows (r : Row) : List Seg → List Row × List (Nat × Pt)
  | [] => ([], [])
  | [x] => ([{ r with geometry := x }], [])
  | x :: y :: rest =>
    let nid := new_node_id r.stnode r.endnode
    let prev := emitRest r nid (y :: rest)
    ({ r with endnode := nid, geometry := x } :: prev.1,
     (nid, x.b) :: prev.2)

/-- Mutable state threaded through the correction pass: the
`inters_done` pair dictionary (insertion order kept), the `idx_inters`
rtree of intersection points (insertion order kept), the growing
`in_df_nodes_raw` node table and the `new_lines` accumulator of singleton
row lists. -/
structure PassState where
  inters_done : List (Nat × Nat)
  idx_inters : List Pt
  nodes : List (Nat × Pt)
  new_lines : List (List Row)
deriving DecidableEq, Repr

/-- Python dict insertion: a repeated key overwrites in place, a new key
appends. -/
def dictInsert (k : Nat) (v : Seg) : List (Nat × Seg) → List (Nat × Seg)
  | [] => [(k, v)]
  | (k2, v2) :: rest =>
    if k = k2 then (k, v) :: rest else (k2, v2) :: dictInsert k v rest

/-- Python `dict(zip(keys, vals))` built left to right. -/
def dictOfPairs (l : List (Nat × Seg)) : List (Nat × Seg) :=
  l.foldl (fun d kv => dictInsert kv.1 kv.2 d) []

/-- Python `dict.pop(k)` (preceded in the source by a membership check). -/
def dictPop (k : Nat) (d : List (Nat × Seg)) : List (Nat × Seg) :=
  d.filter (fun kv => kv.1 ≠ k)

/-- The check `(key1, key2) in inters_done or (key2, key1) in inters_done`
(`load_traffic.py` line 435). -/
def pairDone (done : List (Nat × Nat)) (k1 k2 : Nat) : Bool :=
  done.contains (k1, k2) || done.contains (k2, k1)

/-- Candidate dictionary for one edge (`load_traffic.py` lines 427-431):
rows whose bounding box overlaps the edge's, keyed by `osm_id` with dict
collapse, the edge's own key popped. -/
def candidates (edges : List Row) (r : Row) : List (Nat × Seg) :=
  dictPop r.osm_id
    (dictOfPairs ((edges.filter
      (fun e => boxesIntersect e.geometry.bounds r.geometry.bounds)).map
      (fun e => (e.osm_id, e.geometry))))

/-- Intersection detection for one edge (`load_traffic.py` lines 433-453):
for every not yet processed candidate pair, record the pair and insert the
point intersection (if any) into the point index. -/
def detectForEdge (edges : List Row) (st : PassState) (r : Row) : PassState :=
  (candidates edges r).foldl (fun st2 kv =>
    if pairDone st2.inters_done r.osm_id kv.1 then st2
    else
      let st3 := { st2 with inters_done := st2.inters_done ++ [(r.osm_id, kv.1)] }
      match segInter r.geometry kv.2 with
      | .point p => { st3 with idx_inters := st3.idx_inters ++ [p] }
      | _ => st3) st

/-- The `hits` query (`load_traffic.py` line 456): every point of the
intersection index whose bounds overlap the edge's bounding box, in
insertion order, duplicates included. -/
def hitsFor (st : PassState) (r : Row) : List Pt :=
  st.idx_inters.filter (fun p => ptInBox p r.geometry.bounds)

/-- Processing of one edge row: detection, the hits query, then either the
unmodified pass-through of the zero-hit branch (`load_traffic.py`
lines 588-591) or the split-and-emit loop.  Each emitted row is appended
to `new_lines` as a singleton list, exactly as the source appends
`[{...}]`. -/
def processEdge (edges : List Row) (st : PassState) (r : Row) : PassState :=
  let st1 := detectForEdge edges st r
  let hits := hitsFor st1 r
  if hits = [] then
    { st1 with new_lines := st1.new_lines ++ [[r]] }
  else
    let pieces := splitSeg r.geometry hits
    let er := emitRows r pieces
    { st1 with
      nodes := st1.nodes ++ er.2,
      new_lines := st1.new_lines ++ er.1.map (fun x => [x]) }

/-- Initial pass state over the incoming node table. -/
def initState (nodesIn : List (Nat × Pt)) : PassState :=
  ⟨[], [], nodesIn, []⟩

/-- The whole correction pass `get_all_intersections_and_create_nodes`
(`load_traffic.py` lines 382-638) over the edge rows in input order. -/
def get_all_intersections_and_create_nodes
    (edgesIn : List Row) (nodesIn : List (Nat × Pt)) : PassState :=
  edgesIn.foldl (processEdge edgesIn) (initState nodesIn)

/-- Numbering of the flattened row list from a starting index. -/
def numberFrom (i : Nat) : List Row → List (Nat × Row)
  | [] => []
  | x :: xs => (i, x) :: numberFrom (i + 1) xs

/-- The `flat_list` assembly (`load_traffic.py` lines 601-607): flatten
`new_lines` and assign the running 1-based `id` in production order (no
sublist is ever `None`, so the `is not None` guard is vacuous). -/
def flat_list (ls : List (List Row)) : List (Nat × Row) :=
  numberFrom 1 ls.flatten

/-- No two entries of a recorded pair list coincide as unordered pairs. -/
def unordDistinct (done : List (Nat × Nat)) : Prop :=
  List.Pairwise (fun p q => ¬(p = q ∨ (p.1 = q.2 ∧ p.2 = q.1))) done

/-! ## Attribute merge (`apply_traffic_speeds_to_roads_raw`, lines 54-111) -/

/-- One row of a header-less Mapbox traffic CSV: from-node, to-node, then
the speed sample columns (`x[2:]`). -/
structure TrafficRow where
  from_node : Nat
  to_node : Nat
  samples : List ℚ
deriving DecidableEq, Repr

/-- Python `min` over a list (the source only ever applies it to the
sample columns of a CSV row; on `[]` Python would raise `ValueError`,
which no claim exercises). -/
def pyMin : List ℚ → ℚ
  | [] => 0
  | x :: xs => xs.foldl min x

/-- Python `max` over a list (same caveat as `pyMin`). -/
def pyMax : List ℚ → ℚ
  | [] => 0
  | x :: xs => xs.foldl max x

/-- The `get_speeds` helper (`load_traffic.py` lines 86-89): min, max and
`np.mean` of the sample columns. -/
def get_speeds (xvals : List ℚ) : ℚ × ℚ × ℚ :=
  (pyMin xvals, pyMax xvals, xvals.sum / xvals.length)

/-- The `traffic_simplified` table (`load_traffic.py` lines 91-96): key
columns plus the three aggregates, one output row per CSV row. -/
def traffic_simplified (rows : List TrafficRow) : List (Nat × Nat × (ℚ × ℚ × ℚ)) :=
  rows.map (fun t => (t.from_node, t.to_node, get_speeds t.samples))

/-- A raw road row as seen by the merge: its join keys plus a payload
column standing for the remaining attributes. -/
structure RoadRow where
  stnode : Nat
  endnode : Nat
  osm_id : Nat
deriving DecidableEq, Repr

/-- A road row after the merge, with the three nullable speed columns
(`NaN` on unmatched rows is embedded as `none`). -/
structure MergedRow where
  road : RoadRow
  min_speed : Option ℚ
  max_speed : Option ℚ
  mean_speed : Option ℚ
deriving DecidableEq, Repr

/-- The pandas left merge of `load_traffic.py` line 103: every left row is
kept; a row with no key match gets null speed columns; a row with several
key matches is replicated once per match. -/
def left_merge (roads : List RoadRow) (tr : List (Nat × Nat × (ℚ × ℚ × ℚ))) :
    List MergedRow :=
  (roads.map (fun rd =>
    let ms := tr.filter (fun t => t.1 = rd.stnode ∧ t.2.1 = rd.endnode)
    if ms = [] then [{ road := rd, min_speed := none, max_speed := none, mean_speed := none }]
    else ms.map (fun t =>
      { road := rd, min_speed := some t.2.2.1, max_speed := some t.2.2.2.1,
        mean_speed := some t.2.2.2.2 }))).flatten

/-- The row count the source reports (`load_traffic.py` lines 107-108):
rows whose `mean_speed` compares `> 0` (pandas `NaN > 0` is `False`). -/
def reported_matched (merged : List MergedRow) : Nat :=
  (merged.filter (fun m =>
    match m.mean_speed with
    | some v => decide (v > 0)
    | none => false)).length

/-- Rows actually matched by the join (speed columns populated): the count
the spec says should be reported. -/
def matched_count (merged : List MergedRow) : Nat :=
  (merged.filter (fun m => m.mean_speed ≠ none)).length

/-! ## The `line_length` helper (`load_traffic.py` lines 365-380)

The `MultiLineString` branch evaluates the unqualified name
`line_length`.  Python resolves such a name against the enclosing
function's local scope, then the module's global scope, then the
builtins; the method name lives only in the class namespace, which takes
no part in this lookup, so the resolution fails with `NameError`. -/

/-- Geometry argument of `line_length`: a LineString or a
MultiLineString. -/
inductive PyGeom where
  | lineString (coords : List Pt)
  | multiLineString (parts : List (List Pt))
deriving DecidableEq, Repr

/-- Names bound at module scope in `load_traffic.py` (its import
statements, lines 7-23, and the class statement, line 25). -/
def module_scope_names : List String :=
  ["os", "sys", "time", "shapely", "gpd", "pd", "np", "nx", "ogr", "index",
   "speedups", "LineString", "MultiLineString", "MultiPoint", "Point",
   "vincenty", "pairwise", "loads", "dumps", "OSM_to_network"]

/-- Names local to `line_length`'s body at the point where the branch
evaluates `line_length`: the parameters and the generator variables. -/
def line_length_local_scope : List String :=
  ["self", "line", "ellipsoid", "segment", "a", "b"]

/-- Python builtins consulted last; `line_length` is not among them, and
no builtin list is needed beyond that fact. -/
def name_resolves (n : String) : Bool :=
  n ∈ line_length_local_scope || n ∈ module_scope_names

/-- Consecutive pairs of a list (`boltons.iterutils.pairwise`). -/
def pairwiseL {α : Type} : List α → List (α × α)
  | x :: y :: rest => (x, y) :: pairwiseL (y :: rest)
  | _ => []

/-- The `line_length` method (`load_traffic.py` lines 365-380), with the
external geodesic distance (`geopy` vincenty) abstracted as `dist`.  The
`MultiLineString` branch evaluates the unqualified name `line_length`; if
resolution fails the call raises `NameError` (the `.ok 0` arm is the
resolution-succeeds case, which `name_resolves` provably rules out). -/
def line_length (dist : Pt → Pt → ℚ) (line : PyGeom) : Except String ℚ :=
  match line with
  | .multiLineString _ =>
    if name_resolves "line_length" then .ok 0
    else .error "NameError: name line_length is not defined"
  | .lineString coords =>
    .ok ((pairwiseL coords).foldl (fun acc ab => acc + dist ab.1 ab.2) 0)

/-! ## Concrete scenario inputs used by the claim theorems -/

/-- Row constructor with the attribute columns fixed. -/
def mkRow (st en oid : Nat) (g : Seg) : Row :=
  { stnode := st, endnode := en, osm_id := oid, infra_type := "primary",
    geometry := g, min_speed := none, max_speed := none, mean_speed := none }

/-- Edge A of the end-to-end scenario: (0,0)-(2,0). -/
def rowA : Row := mkRow 10001 10002 1 ⟨⟨0, 0⟩, ⟨2, 0⟩⟩

/-- Edge B of the end-to-end scenario: (1,-1)-(1,1), crossing A at (1,0). -/
def rowB : Row := mkRow 10003 10004 2 ⟨⟨1, -1⟩, ⟨1, 1⟩⟩

/-- Far-away edge (10,0)-(12,0) whose endpoint ids (20001, 10009) truncate
to the same synthetic id as rowA's (10001, 10002). -/
def rowC : Row := mkRow 20001 10009 3 ⟨⟨10, 0⟩, ⟨12, 0⟩⟩

/-- Edge crossing rowC at (11,0). -/
def rowD : Row := mkRow 60001 60002 4 ⟨⟨11, -1⟩, ⟨11, 1⟩⟩

/-- Third edge through (1,0), for the duplicate-hit scenario. -/
def rowE : Row := mkRow 30001 30002 3 ⟨⟨0, -1⟩, ⟨2, 1⟩⟩

/-- Horizontal edge (1,1/2)-(2,1/2) of the degenerate-split scenario. -/
def rowF : Row := mkRow 40001 40002 11 ⟨⟨1, 1/2⟩, ⟨2, 1/2⟩⟩

/-- Vertical edge (3/2,0)-(3/2,1) crossing rowF at (3/2,1/2). -/
def rowG : Row := mkRow 50001 50002 12 ⟨⟨3/2, 0⟩, ⟨3/2, 1⟩⟩

/-- Diagonal edge (0,0)-(2,2): its bounding box contains (3/2,1/2) but its
line does not pass through that point, and it meets neither rowF nor
rowG. -/
def rowH : Row := mkRow 60001 60002 13 ⟨⟨0, 0⟩, ⟨2, 2⟩⟩

/-- Three split pieces of rowA, for the split-count witness. -/
def threePieces : List Seg :=
  [⟨⟨0, 0⟩, ⟨1, 0⟩⟩, ⟨⟨1, 0⟩, ⟨2, 0⟩⟩, ⟨⟨2, 0⟩, ⟨3, 0⟩⟩]

/-! ## General helper lemmas -/

/-- Invariant preservation along a left fold. -/
theorem foldl_preserve {α β : Type} (P : α → Prop) (f : α → β → α) :
    ∀ (l : List β) (st : α), P st → (∀ a b, P a → b ∈ l → P (f a b)) →
      P (l.foldl f st)
  | [], _, h, _ => h
  | b :: l, st, h, hstep =>
    foldl_preserve P f l (f st b) (hstep st b h (List.mem_cons_self b l))
      (fun a c ha hc => hstep a c ha (List.mem_cons_of_mem b hc))

/-- Dropping the head of a cons list keeps the last element when the tail
is nonempty. -/
theorem getLast?_cons_of_ne {α : Type} (a : α) (l : List α) (h : l ≠ []) :
    (a :: l).getLast? = l.getLast? := by
  cases l with
  | nil => exact absurd rfl h
  | cons b m => exact List.getLast?_cons_cons

/-! ## Emission-chain lemmas (the Line Splitter loop) -/

/-- The non-first emission loop yields one row per piece. -/
theorem emitRest_fst_length (r : Row) : ∀ (nid : Nat) (ps : List Seg),
    (emitRest r nid ps).1.length = ps.length
  | _, [] => rfl
  | _, [_] => rfl
  | nid, _ :: y :: rest => by
    have ih := emitRest_fst_length r (nid + 1) (y :: rest)
    simp [emitRest, ih]

/-- The synthetic ids registered by the non-first emission loop are the
consecutive ids starting just above the incoming one. -/
theorem emitRest_snd_ids (r : Row) : ∀ (nid : Nat) (ps : List Seg),
    (emitRest r nid ps).2.map Prod.fst = List.range' (nid + 1) (ps.length - 1)
  | _, [] => by simp [emitRest]
  | _, [_] => by simp [emitRest]
  | nid, _ :: y :: rest => by
    have ih := emitRest_snd_ids r (nid + 1) (y :: rest)
    simp [emitRest, ih, List.range'_succ]

/-- The non-first emission loop registers one node per non-last piece. -/
theorem emitRest_snd_length (r : Row) (nid : Nat) (ps : List Seg) :
    (emitRest r nid ps).2.length = ps.length - 1 := by
  have h := congrArg List.length (emitRest_snd_ids r nid ps)
  simpa using h

/-- The first row emitted by the non-first loop starts at the incoming
synthetic id. -/
theorem emitRest_head_stnode (r : Row) (nid : Nat) (ps : List Seg) (h : ps ≠ []) :
    ((emitRest r nid ps).1[0]?).map Row.stnode = some nid := by
  match ps with
  | [x] => simp [emitRest]
  | x :: y :: rest => simp [emitRest]

/-- The last row emitted by the non-first loop ends at the original
`endnode` carried in `r`. -/
theorem emitRest_getLast_endnode (r : Row) : ∀ (nid : Nat) (ps : List Seg), ps ≠ [] →
    ((emitRest r nid ps).1.getLast?).map Row.endnode = some r.endnode
  | nid, [x], _ => by simp [emitRest]
  | nid, x :: y :: rest, _ => by
    have ih := emitRest_getLast_endnode r (nid + 1) (y :: rest) (by simp)
    have hne : (emitRest r (nid + 1) (y :: rest)).1 ≠ [] := by
      intro hc
      have := emitRest_fst_length r (nid + 1) (y :: rest)
      rw [hc] at this
      simp at this
    simp only [emitRest]
    rw [getLast?_cons_of_ne _ _ hne]
    exact ih

/-- Chain structure of the non-first loop: row `j` ends at `nid + 1 + j`
and row `j + 1` starts there. -/
theorem emitRest_chain (r : Row) : ∀ (nid : Nat) (ps : List Seg) (j : Nat),
    j + 1 < ps.length →
    ((emitRest r nid ps).1[j]?).map Row.endnode = some (nid + 1 + j) ∧
    ((emitRest r nid ps).1[j + 1]?).map Row.stnode = some (nid + 1 + j)
  | _, [], j, h => by simp at h
  | _, [_], j, h => by simp at h
  | nid, x :: y :: rest, 0, _ => by
    refine ⟨by simp [emitRest], ?_⟩
    have hh := emitRest_head_stnode r (nid + 1) (y :: rest) (by simp)
    simpa [emitRest] using hh
  | nid, x :: y :: rest, j + 1, h => by
    have hlt : j + 1 < (y :: rest).length := by
      simp only [List.length_cons] at h ⊢
      omega
    have ih := emitRest_chain r (nid + 1) (y :: rest) j hlt
    have e : nid + 1 + (j + 1) = nid + 1 + 1 + j := by omega
    constructor
    · rw [e]
      simpa [emitRest] using ih.1
    · rw [e]
      simpa [emitRest] using ih.2

/-- Row ids of the numbered flat list are consecutive from the start
index. -/
theorem numberFrom_map_fst : ∀ (i : Nat) (l : List Row),
    (numberFrom i l).map Prod.fst = List.range' i l.length
  | _, [] => by simp [numberFrom]
  | i, x :: xs => by
    have ih := numberFrom_map_fst (i + 1) xs
    simp [numberFrom, ih, List.range'_succ]

/-- C2: when the geometric split of a RawEdge yields `k + 1 ≥ 2`
sub-geometries, the splitter emits exactly `k + 1` CorrectedEdges and
registers exactly `k` new nodes whose ids are the consecutive run starting
at `new_node_id stnode endnode` (hence pairwise distinct); the first
emitted edge starts at the original `stnode`, the last one ends at the
original `endnode`, and for each `j < k` the `j`-th synthetic id is the
end node of emitted edge `j` and the start node of emitted edge
`j + 1`. -/
theorem C2_split_count (r : Row) (ps : List Seg) (k : Nat) (hk : 1 ≤ k)
    (hlen : ps.length = k + 1) :
    (emitRows r ps).1.length = k + 1 ∧
    (emitRows r ps).2.length = k ∧
    (emitRows r ps).2.map Prod.fst =
      List.range' (new_node_id r.stnode r.endnode) k ∧
    ((emitRows r ps).2.map Prod.fst).Nodup ∧
    ((emitRows r ps).1[0]?).map Row.stnode = some r.stnode ∧
    ((emitRows r ps).1.getLast?).map Row.endnode = some r.endnode ∧
    (∀ j, j < k →
      ((emitRows r ps).1[j]?).map Row.endnode =
        some (new_node_id r.stnode r.endnode + j) ∧
      ((emitRows r ps).1[j + 1]?).map Row.stnode =
        some (new_node_id r.stnode r.endnode + j)) := by
  match ps, hlen with
  | [], hlen => simp at hlen
  | [x], hlen =>
    exfalso
    simp at hlen
    omega
  | x :: y :: rest, hlen =>
    have hrest : rest.length + 1 = k := by
      simp only [List.length_cons] at hlen
      omega
    have hfull : (emitRows r (x :: y :: rest)).2.map Prod.fst =
        List.range' (new_node_id r.stnode r.endnode) k := by
      have hids := emitRest_snd_ids r (new_node_id r.stnode r.endnode) (y :: rest)
      simp only [emitRows, List.map_cons, hids, List.length_cons,
        Nat.add_sub_cancel]
      rw [← hrest, List.range'_succ]
    refine ⟨?_, ?_, hfull, ?_, ?_, ?_, ?_⟩
    · simp only [emitRows, List.length_cons, emitRest_fst_length]
      omega
    · simp only [emitRows, List.length_cons, emitRest_snd_length,
        Nat.add_sub_cancel]
      omega
    · rw [hfull]
      simp [List.nodup_range']
    · simp [emitRows]
    · have ih := emitRest_getLast_endnode r (new_node_id r.stnode r.endnode)
        (y :: rest) (by simp)
      have hne : (emitRest r (new_node_id r.stnode r.endnode) (y :: rest)).1 ≠ [] := by
        intro hc
        have := emitRest_fst_length r (new_node_id r.stnode r.endnode) (y :: rest)
        rw [hc] at this
        simp at this
      simp only [emitRows]
      rw [getLast?_cons_of_ne _ _ hne]
      exact ih
    · intro j hj
      cases j with
      | zero =>
        refine ⟨by simp [emitRows], ?_⟩
        have hh := emitRest_head_stnode r (new_node_id r.stnode r.endnode)
          (y :: rest) (by simp)
        simpa [emitRows] using hh
      | succ j' =>
        have hlt : j' + 1 < (y :: rest).length := by
          simp only [List.length_cons]
          omega
        have ih := emitRest_chain r (new_node_id r.stnode r.endnode) (y :: rest) j' hlt
        have e : new_node_id r.stnode r.endnode + (j' + 1) =
            new_node_id r.stnode r.endnode + 1 + j' := by omega
        constructor
        · rw [e]
          simpa [emitRows] using ih.1
        · rw [e]
          simpa [emitRows] using ih.2

/-- Witness for C2 at a concrete split of rowA into three pieces. -/
theorem C2_split_count_witness :
    (emitRows rowA threePieces).1.length = 2 + 1 ∧
    (emitRows rowA threePieces).2.map Prod.fst = List.range' 9911000 2 :=
  ⟨(C2_split_count rowA threePieces 2 (by decide) (by decide)).1,
   (C2_split_count rowA threePieces 2 (by decide) (by decide)).2.2.1⟩

/-- C8: after the pass, the `id` field across all emitted CorrectedEdges
is the contiguous 1-based sequence `1, 2, ...` with no duplicates,
assigned in the order the rows were produced. -/
theorem C8_global_ids (ls : List (List Row)) :
    (flat_list ls).map Prod.fst = List.range' 1 ls.flatten.length ∧
    ((flat_list ls).map Prod.fst).Nodup := by
  have h2 : (flat_list ls).map Prod.fst = List.range' 1 ls.flatten.length :=
    numberFrom_map_fst 1 ls.flatten
  refine ⟨h2, ?_⟩
  rw [h2]
  simp [List.nodup_range']

/-- C1 counterexample: on the end-to-end scenario (edge A `(0,0)-(2,0)`
with endpoint ids 10001, 10002 and edge B `(1,-1)-(1,1)` with endpoint ids
10003, 10004, crossing at `(1,0)` with no shared endpoint) the pass does
emit 4 CorrectedEdges with the expected geometries, but the four sub-edges
do not all reference the same node id at the crossing: A's pieces meet at
synthetic id 9911000 while B's meet at 9931000.  The claim is false at
this input. -/
theorem C1_counterexample :
    (flat_list (get_all_intersections_and_create_nodes [rowA, rowB] []).new_lines).length = 4 ∧
    (flat_list (get_all_intersections_and_create_nodes [rowA, rowB] []).new_lines).map
        (fun x => x.2.geometry) =
      [⟨⟨0, 0⟩, ⟨1, 0⟩⟩, ⟨⟨1, 0⟩, ⟨2, 0⟩⟩, ⟨⟨1, -1⟩, ⟨1, 0⟩⟩, ⟨⟨1, 0⟩, ⟨1, 1⟩⟩] ∧
    ¬ (((flat_list (get_all_intersections_and_create_nodes [rowA, rowB] []).new_lines).map
        (fun x => x.2.endnode))[0]? =
      ((flat_list (get_all_intersections_and_create_nodes [rowA, rowB] []).new_lines).map
        (fun x => x.2.endnode))[2]?) := by
  decide

/-- C1 amended: the pass emits exactly 4 CorrectedEdges — A split into
`(0,0)-(1,0)` and `(1,0)-(2,0)`, B split into `(1,-1)-(1,0)` and
`(1,0)-(1,1)` — with A's two sub-edges sharing one synthetic node id
(9911000) at the crossing and B's two sub-edges sharing a different one
(9931000); both synthetic nodes carry the coordinate `(1,0)`, so the
crossing is resolved per edge but the two chains do not share a node
id. -/
theorem C1_amended :
    flat_list (get_all_intersections_and_create_nodes [rowA, rowB] []).new_lines =
      [(1, { rowA with endnode := 9911000, geometry := ⟨⟨0, 0⟩, ⟨1, 0⟩⟩ }),
       (2, { rowA with stnode := 9911000, geometry := ⟨⟨1, 0⟩, ⟨2, 0⟩⟩ }),
       (3, { rowB with endnode := 9931000, geometry := ⟨⟨1, -1⟩, ⟨1, 0⟩⟩ }),
       (4, { rowB with stnode := 9931000, geometry := ⟨⟨1, 0⟩, ⟨1, 1⟩⟩ })] ∧
    (get_all_intersections_and_create_nodes [rowA, rowB] []).nodes =
      [(9911000, ⟨1, 0⟩), (9931000, ⟨1, 0⟩)] := by
  decide

/-- C3 counterexample: in one run over rowA..rowD, edge rowA (endpoint ids
10001, 10002) and edge rowC (endpoint ids 20001, 10009) both synthesize
the id 9911000 — the digit truncations coincide — so two distinct
synthetic nodes (at `(1,0)` and `(11,0)`) collide on the same id, refuting
the no-collision claim. -/
theorem C3_counterexample :
    ((get_all_intersections_and_create_nodes [rowA, rowB, rowC, rowD] []).nodes).map
        Prod.fst = [9911000, 9931000, 9911000, 9916000] ∧
    ¬ (((get_all_intersections_and_create_nodes [rowA, rowB, rowC, rowD] []).nodes).map
        Prod.fst).Nodup ∧
    ((get_all_intersections_and_create_nodes [rowA, rowB, rowC, rowD] []).nodes)[0]?.map
        Prod.fst =
      ((get_all_intersections_and_create_nodes [rowA, rowB, rowC, rowD] []).nodes)[2]?.map
        Prod.fst ∧
    ((get_all_intersections_and_create_nodes [rowA, rowB, rowC, rowD] []).nodes)[0]? ≠
      ((get_all_intersections_and_create_nodes [rowA, rowB, rowC, rowD] []).nodes)[2]? := by
  have hn : (get_all_intersections_and_create_nodes [rowA, rowB, rowC, rowD] []).nodes =
      [(9911000, ⟨1, 0⟩), (9931000, ⟨1, 0⟩), (9911000, ⟨11, 0⟩), (9916000, ⟨11, 0⟩)] := by
    decide
  refine ⟨?_, ?_, ?_, ?_⟩ <;> rw [hn] <;> decide

/-- C3 amended: within one edge's split chain, the synthetic ids are
deterministic in the original endpoint-id pair — the run of consecutive
ids starting at `new_node_id stnode endnode`, each subsequent split
incrementing the previous id — and are therefore pairwise distinct within
the chain; no uniqueness across edges or against existing node ids
holds. -/
theorem C3_amended (r : Row) (ps : List Seg) :
    (emitRows r ps).2.map Prod.fst =
      List.range' (new_node_id r.stnode r.endnode) (ps.length - 1) ∧
    ((emitRows r ps).2.map Prod.fst).Nodup := by
  cases ps with
  | nil => simp [emitRows]
  | cons x tl =>
    cases tl with
    | nil => simp [emitRows]
    | cons y rest =>
      have hids := emitRest_snd_ids r (new_node_id r.stnode r.endnode) (y :: rest)
      have hfull : (emitRows r (x :: y :: rest)).2.map Prod.fst =
          List.range' (new_node_id r.stnode r.endnode) ((x :: y :: rest).length - 1) := by
        simp only [emitRows, List.map_cons, hids, List.length_cons,
          Nat.add_sub_cancel]
        rw [List.range'_succ]
      refine ⟨hfull, ?_⟩
      rw [hfull]
      simp [List.nodup_range']

/-- C5 counterexample: with the three concurrent edges rowA, rowB, rowE
all passing through `(1,0)`, the split-point list actually used for rowA
(the `hits` list retrieved from the point index for rowA's bounding box)
contains the coordinate `(1,0)` twice — it is not deduplicated as a set of
coordinates before being handed to the geometric split. -/
theorem C5_counterexample :
    hitsFor (detectForEdge [rowA, rowB, rowE] (initState []) rowA) rowA =
      [⟨1, 0⟩, ⟨1, 0⟩] ∧
    ¬ (hitsFor (detectForEdge [rowA, rowB, rowE] (initState []) rowA) rowA).Nodup := by
  decide

/-! ## Sorted-insert lemmas, for split insensitivity to duplicates -/

/-- Membership after a sorted duplicate-skipping insert. -/
theorem mem_insortNodup (t z : ℚ) : ∀ (acc : List ℚ),
    z ∈ insortNodup t acc ↔ z = t ∨ z ∈ acc
  | [] => by simp [insortNodup]
  | x :: xs => by
    by_cases h1 : t < x
    · simp [insortNodup, h1]
    · by_cases h2 : t = x
      · subst h2
        simp [insortNodup, h1]
      · have ih := mem_insortNodup t z xs
        simp [insortNodup, h1, h2, ih]
        tauto

/-- The sorted duplicate-skipping insert preserves strict sortedness. -/
theorem insortNodup_sorted (t : ℚ) : ∀ (acc : List ℚ),
    acc.Sorted (· < ·) → (insortNodup t acc).Sorted (· < ·)
  | [], _ => by simp [insortNodup]
  | x :: xs, h => by
    rw [List.sorted_cons] at h
    by_cases h1 : t < x
    · simp only [insortNodup, if_pos h1, List.sorted_cons]
      refine ⟨?_, ?_⟩
      · intro b hb
        rcases List.mem_cons.1 hb with rfl | hb2
        · exact h1
        · exact lt_trans h1 (h.1 b hb2)
      · exact h
    · by_cases h2 : t = x
      · simp only [insortNodup, if_neg h1, if_pos h2, List.sorted_cons]
        exact h
      · have hx : x < t := by
          rcases lt_trichotomy t x with hc | hc | hc
          · exact absurd hc h1
          · exact absurd hc h2
          · exact hc
        have ih := insortNodup_sorted t xs h.2
        simp only [insortNodup, if_neg h1, if_neg h2, List.sorted_cons]
        refine ⟨?_, ih⟩
        intro b hb
        rcases (mem_insortNodup t b xs).1 hb with rfl | hb2
        · exact hx
        · exact h.1 b hb2

/-- Two strictly sorted rational lists with the same members are equal. -/
theorem sorted_eq_of_mem_iff {l1 l2 : List ℚ} (h1 : l1.Sorted (· < ·))
    (h2 : l2.Sorted (· < ·)) (hm : ∀ z, z ∈ l1 ↔ z ∈ l2) : l1 = l2 := by
  haveI : IsAntisymm ℚ (· < ·) := ⟨fun a b ha hb => absurd hb (lt_asymm ha)⟩
  exact List.eq_of_perm_of_sorted
    ((List.perm_ext_iff_of_nodup h1.nodup h2.nodup).mpr hm) h1 h2

/-- Inserting the same parameter twice is the same as inserting it once. -/
theorem insortNodup_idem (t : ℚ) (acc : List ℚ) (h : acc.Sorted (· < ·)) :
    insortNodup t (insortNodup t acc) = insortNodup t acc := by
  refine sorted_eq_of_mem_iff
    (insortNodup_sorted t _ (insortNodup_sorted t acc h))
    (insortNodup_sorted t acc h) ?_
  intro z
  simp only [mem_insortNodup]
  tauto

/-- Two sorted inserts commute. -/
theorem insortNodup_swap (t u : ℚ) (acc : List ℚ) (h : acc.Sorted (· < ·)) :
    insortNodup t (insortNodup u acc) = insortNodup u (insortNodup t acc) := by
  refine sorted_eq_of_mem_iff
    (insortNodup_sorted t _ (insortNodup_sorted u acc h))
    (insortNodup_sorted u _ (insortNodup_sorted t acc h)) ?_
  intro z
  simp only [mem_insortNodup]
  tauto

/-- The parameter-collecting step preserves sortedness. -/
theorem insPt_sorted (s : Seg) (p : Pt) (acc : List ℚ) (h : acc.Sorted (· < ·)) :
    (insPt s acc p).Sorted (· < ·) := by
  rcases hip : interiorParam s p with _ | t
  · simpa [insPt, hip] using h
  · simpa [insPt, hip] using insortNodup_sorted t acc h

/-- The parameter-collecting step is idempotent per point. -/
theorem insPt_idem (s : Seg) (p : Pt) (acc : List ℚ) (h : acc.Sorted (· < ·)) :
    insPt s (insPt s acc p) p = insPt s acc p := by
  rcases hip : interiorParam s p with _ | t
  · simp [insPt, hip]
  · simpa [insPt, hip] using insortNodup_idem t acc h

/-- Parameter-collecting steps for two points commute. -/
theorem insPt_swap (s : Seg) (p q : Pt) (acc : List ℚ) (h : acc.Sorted (· < ·)) :
    insPt s (insPt s acc p) q = insPt s (insPt s acc q) p := by
  rcases hip : interiorParam s p with _ | t <;>
    rcases hiq : interiorParam s q with _ | u <;>
    simp [insPt, hip, hiq]
  exact insortNodup_swap u t acc h

/-- Folding over a list already containing `p` ignores a prior insert of
`p`. -/
theorem foldl_insPt_dup (s : Seg) (p : Pt) : ∀ (pts : List Pt) (acc : List ℚ),
    p ∈ pts → acc.Sorted (· < ·) →
    pts.foldl (insPt s) (insPt s acc p) = pts.foldl (insPt s) acc
  | [], _, hp, _ => absurd hp (List.not_mem_nil p)
  | b :: m, acc, hp, hs => by
    rcases List.mem_cons.1 hp with rfl | hpm
    · simp only [List.foldl_cons]
      rw [insPt_idem s p acc hs]
    · simp only [List.foldl_cons]
      rw [insPt_swap s p b acc hs]
      exact foldl_insPt_dup s p m (insPt s acc b) hpm (insPt_sorted s b acc hs)

/-- The parameter fold is insensitive to duplicate points. -/
theorem foldl_insPt_dedup (s : Seg) : ∀ (pts : List Pt) (acc : List ℚ),
    acc.Sorted (· < ·) →
    pts.dedup.foldl (insPt s) acc = pts.foldl (insPt s) acc
  | [], _, _ => by simp
  | a :: l, acc, hs => by
    by_cases ha : a ∈ l
    · rw [List.dedup_cons_of_mem ha]
      simp only [List.foldl_cons]
      rw [foldl_insPt_dup s a l acc ha hs]
      exact foldl_insPt_dedup s l acc hs
    · rw [List.dedup_cons_of_not_mem ha]
      simp only [List.foldl_cons]
      exact foldl_insPt_dedup s l (insPt s acc a) (insPt_sorted s a acc hs)

/-! ## Pair-deduplication lemmas (the Intersection Detector) -/

/-- Every candidate key differs from the probing edge's own id (the
`intersections.pop(key1)` self-exclusion). -/
theorem candidates_key_ne (edges : List Row) (r : Row) (kv : Nat × Seg)
    (h : kv ∈ candidates edges r) : kv.1 ≠ r.osm_id := by
  unfold candidates dictPop at h
  have h2 := (List.mem_filter.1 h).2
  simpa using h2

/-- Detection for one edge keeps the recorded pair list free of repeated
unordered pairs and of self pairs. -/
theorem detectForEdge_pair_inv (edges : List Row) (st : PassState) (r : Row)
    (h1 : unordDistinct st.inters_done)
    (h2 : ∀ p ∈ st.inters_done, p.1 ≠ p.2) :
    unordDistinct (detectForEdge edges st r).inters_done ∧
    ∀ p ∈ (detectForEdge edges st r).inters_done, p.1 ≠ p.2 := by
  unfold detectForEdge
  refine foldl_preserve
    (fun s => unordDistinct s.inters_done ∧ ∀ p ∈ s.inters_done, p.1 ≠ p.2)
    _ (candidates edges r) st ⟨h1, h2⟩ ?_
  intro a kv ha hkv
  dsimp only
  by_cases hd : pairDone a.inters_done r.osm_id kv.1 = true
  · rw [if_pos hd]
    exact ha
  · rw [if_neg hd]
    have hne : kv.1 ≠ r.osm_id := candidates_key_ne edges r kv hkv
    simp [pairDone, not_or] at hd
    have hstep : ∀ (s : PassState),
        s.inters_done = a.inters_done ++ [(r.osm_id, kv.1)] →
        unordDistinct s.inters_done ∧ ∀ p ∈ s.inters_done, p.1 ≠ p.2 := by
      intro s hs
      rw [hs]
      constructor
      · unfold unordDistinct at ha ⊢
        rw [List.pairwise_append]
        refine ⟨ha.1, by simp, ?_⟩
        intro p hp q hq
        simp only [List.mem_singleton] at hq
        subst hq
        rintro (rfl | hswap)
        · exact hd.1 hp
        · have : p = (kv.1, r.osm_id) := Prod.ext hswap.1 hswap.2
          rw [this] at hp
          exact hd.2 hp
      · intro p hp
        rcases List.mem_append.1 hp with hp2 | hp2
        · exact ha.2 p hp2
        · simp only [List.mem_singleton] at hp2
          subst hp2
          exact fun hc => hne hc.symm
    cases hseg : segInter r.geometry kv.2 with
    | point p => exact hstep _ (by simp)
    | empty => exact hstep _ (by simp)
    | lineOverlap => exact hstep _ (by simp)

/-- Processing an edge touches the pair dictionary only through its
detection phase. -/
theorem processEdge_inters_done (edges : List Row) (st : PassState) (r : Row) :
    (processEdge edges st r).inters_done = (detectForEdge edges st r).inters_done := by
  unfold processEdge
  by_cases h : hitsFor (detectForEdge edges st r) r = [] <;> simp [h]

/-- C4: across a whole run of the pass, the unordered id pairs recorded in
`inters_done` are pairwise distinct as unordered pairs — each pair of edge
ids is processed at most once, whichever edge is visited first — no
recorded pair is a self pair, and the probing edge's own id is excluded
from its candidate set. -/
theorem C4_pair_dedup (edgesIn : List Row) (nodesIn : List (Nat × Pt)) :
    unordDistinct (get_all_intersections_and_create_nodes edgesIn nodesIn).inters_done ∧
    (∀ p ∈ (get_all_intersections_and_create_nodes edgesIn nodesIn).inters_done,
      p.1 ≠ p.2) ∧
    (∀ (r : Row) (kv : Nat × Seg), kv ∈ candidates edgesIn r → kv.1 ≠ r.osm_id) := by
  have hmain : unordDistinct
      (get_all_intersections_and_create_nodes edgesIn nodesIn).inters_done ∧
      ∀ p ∈ (get_all_intersections_and_create_nodes edgesIn nodesIn).inters_done,
        p.1 ≠ p.2 := by
    unfold get_all_intersections_and_create_nodes
    refine foldl_preserve
      (fun s => unordDistinct s.inters_done ∧ ∀ p ∈ s.inters_done, p.1 ≠ p.2)
      _ edgesIn (initState nodesIn) ⟨by simp [initState, unordDistinct], by simp [initState]⟩ ?_
    intro a r ha _
    have hd := detectForEdge_pair_inv edgesIn a r ha.1 ha.2
    rw [processEdge_inters_done edgesIn a r]
    exact hd
  exact ⟨hmain.1, hmain.2, fun r kv h => candidates_key_ne edgesIn r kv h⟩

/-- Witness for C4 on the concrete two-edge crossing run. -/
theorem C4_pair_dedup_witness :
    unordDistinct (get_all_intersections_and_create_nodes [rowA, rowB] []).inters_done :=
  (C4_pair_dedup [rowA, rowB] []).1

/-- C5 amended: the hit list retrieved from the point index is used as-is
(duplicates included) as the split-point input, but the geometric split
depends only on the set of distinct coordinates: splitting at the raw hit
list yields exactly the pieces obtained from its deduplication. -/
theorem C5_amended (s : Seg) (pts : List Pt) :
    splitSeg s pts = splitSeg s pts.dedup := by
  unfold splitSeg sortedParams
  rw [foldl_insPt_dedup s pts [] (by simp)]

/-! ## Geometric support lemmas -/

/-- A convex combination of two rationals stays between them. -/
theorem param_between (a b t : ℚ) (h0 : 0 ≤ t) (h1 : t ≤ 1) :
    min a b ≤ a + t * (b - a) ∧ a + t * (b - a) ≤ max a b := by
  rcases le_total a b with hab | hab
  · rw [min_eq_left hab, max_eq_right hab]
    constructor
    · nlinarith [mul_nonneg h0 (sub_nonneg.mpr hab)]
    · nlinarith [mul_nonneg (sub_nonneg.mpr h1) (sub_nonneg.mpr hab)]
  · rw [min_eq_right hab, max_eq_left hab]
    constructor
    · nlinarith [mul_nonneg (sub_nonneg.mpr h1) (sub_nonneg.mpr hab)]
    · nlinarith [mul_nonneg h0 (sub_nonneg.mpr hab)]

/-- Any point of a segment at a parameter in `[0,1]` lies in the segment's
bounding box. -/
theorem coordPt_inBox (s : Seg) (t : ℚ) (h0 : 0 ≤ t) (h1 : t ≤ 1) :
    ptInBox ⟨s.a.x + t * (s.b.x - s.a.x), s.a.y + t * (s.b.y - s.a.y)⟩
      s.bounds = true := by
  have hx := param_between s.a.x s.b.x t h0 h1
  have hy := param_between s.a.y s.b.y t h0 h1
  simp only [ptInBox, boxesIntersect, Pt.bounds, Seg.bounds, Bool.and_eq_true,
    decide_eq_true_eq]
  exact ⟨⟨⟨hx.2, hx.1⟩, hy.2⟩, hy.1⟩

/-- Every point intersection of two segments lies in the bounding box of
the first. -/
theorem segInter_point_inBounds (s1 s2 : Seg) (p : Pt)
    (h : segInter s1 s2 = .point p) : ptInBox p s1.bounds = true := by
  unfold segInter at h
  dsimp only at h
  split_ifs at h with h1 h2 h3 h4 h5 h6 h7 h8 h9
  · injection h with hp
    subst hp
    exact coordPt_inBox s1 _ h2.1 h2.2.1
  · injection h with hp
    subst hp
    have hc := coordPt_inBox s1 0 le_rfl zero_le_one
    simpa using hc
  · injection h with hp
    subst hp
    have hc := coordPt_inBox s1 0 le_rfl zero_le_one
    simpa using hc
  · injection h with hp
    subst hp
    refine coordPt_inBox s1 _ (le_max_left _ _) ?_
    rw [h9]
    exact min_le_left _ _

/-- A point inside one box cannot be inside a box disjoint from it. -/
theorem ptInBox_of_disjoint (p : Pt) (b1 b2 : Box) (hp : ptInBox p b1 = true)
    (hd : boxesIntersect b1 b2 = false) : ptInBox p b2 = false := by
  by_contra hc
  rw [Bool.not_eq_false] at hc
  simp only [ptInBox, boxesIntersect, Pt.bounds, Bool.and_eq_true,
    decide_eq_true_eq] at hp hc
  rw [← Bool.not_eq_true] at hd
  apply hd
  simp only [boxesIntersect, Bool.and_eq_true, decide_eq_true_eq]
  obtain ⟨⟨⟨hp1, hp2⟩, hp3⟩, hp4⟩ := hp
  obtain ⟨⟨⟨hc1, hc2⟩, hc3⟩, hc4⟩ := hc
  exact ⟨⟨⟨le_trans hp2 hc1, le_trans hc2 hp1⟩, le_trans hp4 hc3⟩,
    le_trans hc4 hp3⟩

/-- A segment's bounding box overlaps itself. -/
theorem boxesIntersect_self_seg (s : Seg) :
    boxesIntersect s.bounds s.bounds = true := by
  simp only [boxesIntersect, Seg.bounds, Bool.and_eq_true, decide_eq_true_eq]
  exact ⟨⟨⟨min_le_max, min_le_max⟩, min_le_max⟩, min_le_max⟩

/-- Detection for one edge leaves the node table and the emitted row list
untouched. -/
theorem detectForEdge_nodes_lines (edges : List Row) (st : PassState) (r : Row) :
    (detectForEdge edges st r).nodes = st.nodes ∧
    (detectForEdge edges st r).new_lines = st.new_lines := by
  unfold detectForEdge
  refine foldl_preserve
    (fun s => s.nodes = st.nodes ∧ s.new_lines = st.new_lines)
    _ (candidates edges r) st ⟨rfl, rfl⟩ ?_
  intro a kv ha _
  dsimp only
  by_cases hd : pairDone a.inters_done r.osm_id kv.1 = true
  · rw [if_pos hd]
    exact ha
  · rw [if_neg hd]
    cases segInter r.geometry kv.2 <;> simpa using ha

/-- Processing an edge touches the point index only through its detection
phase. -/
theorem processEdge_idx_inters (edges : List Row) (st : PassState) (r : Row) :
    (processEdge edges st r).idx_inters = (detectForEdge edges st r).idx_inters := by
  unfold processEdge
  by_cases h : hitsFor (detectForEdge edges st r) r = [] <;> simp [h]

/-- An edge whose hits query comes back empty is passed through as exactly
one CorrectedEdge identical to the original, and no node is created. -/
theorem processEdge_no_hits (edges : List Row) (st : PassState) (r : Row)
    (h : hitsFor (detectForEdge edges st r) r = []) :
    (processEdge edges st r).new_lines = st.new_lines ++ [[r]] ∧
    (processEdge edges st r).nodes = st.nodes := by
  have hdl := detectForEdge_nodes_lines edges st r
  simp [processEdge, h, hdl.1, hdl.2]

/-- An edge whose bounding box overlaps no other row's bounding box has an
empty candidate dictionary. -/
theorem candidates_isolated (pre post : List Row) (r : Row)
    (hdisj : ∀ e ∈ pre ++ post,
      boxesIntersect e.geometry.bounds r.geometry.bounds = false) :
    candidates (pre ++ r :: post) r = [] := by
  have hfilter : (pre ++ r :: post).filter
      (fun e => boxesIntersect e.geometry.bounds r.geometry.bounds) = [r] := by
    rw [List.filter_append, List.filter_cons]
    have hpre : pre.filter
        (fun e => boxesIntersect e.geometry.bounds r.geometry.bounds) = [] := by
      rw [List.filter_eq_nil_iff]
      intro e he
      simp [hdisj e (List.mem_append_left post he)]
    have hpost : post.filter
        (fun e => boxesIntersect e.geometry.bounds r.geometry.bounds) = [] := by
      rw [List.filter_eq_nil_iff]
      intro e he
      simp [hdisj e (List.mem_append_right pre he)]
    rw [hpre, hpost]
    simp [boxesIntersect_self_seg]
  unfold candidates
  rw [hfilter]
  simp [dictOfPairs, dictInsert, dictPop]

/-- C6: an edge for which zero intersection points are recorded within its
bounding box is passed through as exactly one CorrectedEdge identical to
the original row (same geometry, endpoints and attributes) with no node
created; in particular, an edge whose bounding box intersects no other
edge's bounding box — placed anywhere in the input — contributes exactly
its own unmodified row when its turn comes in the pass. -/
theorem C6_zero_hits_passthrough :
    (∀ (edges : List Row) (st : PassState) (r : Row),
      hitsFor (detectForEdge edges st r) r = [] →
      (processEdge edges st r).new_lines = st.new_lines ++ [[r]] ∧
      (processEdge edges st r).nodes = st.nodes) ∧
    (∀ (pre post : List Row) (r : Row) (nodesIn : List (Nat × Pt)),
      (∀ e ∈ pre ++ post,
        boxesIntersect e.geometry.bounds r.geometry.bounds = false) →
      (processEdge (pre ++ r :: post)
          (List.foldl (processEdge (pre ++ r :: post)) (initState nodesIn) pre)
          r).new_lines =
        (List.foldl (processEdge (pre ++ r :: post)) (initState nodesIn)
          pre).new_lines ++ [[r]] ∧
      (processEdge (pre ++ r :: post)
          (List.foldl (processEdge (pre ++ r :: post)) (initState nodesIn) pre)
          r).nodes =
        (List.foldl (processEdge (pre ++ r :: post)) (initState nodesIn)
          pre).nodes) := by
  refine ⟨processEdge_no_hits, ?_⟩
  intro pre post r nodesIn hdisj
  have hcand := candidates_isolated pre post r hdisj
  have hdet : ∀ st, detectForEdge (pre ++ r :: post) st r = st := by
    intro st
    unfold detectForEdge
    rw [hcand]
    rfl
  have hinv : ∀ p ∈ (List.foldl (processEdge (pre ++ r :: post))
      (initState nodesIn) pre).idx_inters,
      ptInBox p r.geometry.bounds = false := by
    refine foldl_preserve
      (fun s => ∀ p ∈ s.idx_inters, ptInBox p r.geometry.bounds = false)
      _ pre (initState nodesIn) (by simp [initState]) ?_
    intro a e ha he
    rw [processEdge_idx_inters]
    unfold detectForEdge
    refine foldl_preserve
      (fun s => ∀ p ∈ s.idx_inters, ptInBox p r.geometry.bounds = false)
      _ (candidates (pre ++ r :: post) e) a ha ?_
    intro a2 kv ha2 _
    dsimp only
    by_cases hd : pairDone a2.inters_done e.osm_id kv.1 = true
    · rw [if_pos hd]
      exact ha2
    · rw [if_neg hd]
      cases hseg : segInter e.geometry kv.2 with
      | empty => simpa using ha2
      | lineOverlap => simpa using ha2
      | point p =>
        simp only [List.mem_append, List.mem_singleton]
        intro q hq
        rcases hq with hq | hq
        · exact ha2 q hq
        · subst hq
          have hpin := segInter_point_inBounds e.geometry kv.2 q hseg
          exact ptInBox_of_disjoint q e.geometry.bounds r.geometry.bounds hpin
            (hdisj e (List.mem_append_left post he))
  have hhits : hitsFor (detectForEdge (pre ++ r :: post)
      (List.foldl (processEdge (pre ++ r :: post)) (initState nodesIn) pre) r)
      r = [] := by
    rw [hdet]
    unfold hitsFor
    rw [List.filter_eq_nil_iff]
    intro p hp
    simp [hinv p hp]
  exact processEdge_no_hits _ _ _ hhits

/-- Witness for C6: a run whose second edge is far away from rowA. -/
theorem C6_zero_hits_passthrough_witness :
    (processEdge ([] ++ rowA :: [rowC])
        (List.foldl (processEdge ([] ++ rowA :: [rowC])) (initState []) [])
        rowA).new_lines =
      (List.foldl (processEdge ([] ++ rowA :: [rowC])) (initState [])
        []).new_lines ++ [[rowA]] ∧
    (processEdge ([] ++ rowA :: [rowC])
        (List.foldl (processEdge ([] ++ rowA :: [rowC])) (initState []) [])
        rowA).nodes =
      (List.foldl (processEdge ([] ++ rowA :: [rowC])) (initState [])
        []).nodes :=
  C6_zero_hits_passthrough.2 [] [rowC] rowA [] (by decide)

/-- The pair chain of a list has one segment fewer than the vertex
count. -/
theorem pairSegs_length : ∀ (l : List Pt), (pairSegs l).length = l.length - 1
  | [] => rfl
  | [_] => rfl
  | x :: y :: rest => by
    have ih := pairSegs_length (y :: rest)
    simp only [pairSegs, List.length_cons] at ih ⊢
    omega

/-- A split that returns a single piece returns the whole segment. -/
theorem splitSeg_singleton (s : Seg) (pts : List Pt)
    (h : (splitSeg s pts).length = 1) : splitSeg s pts = [s] := by
  unfold splitSeg at h ⊢
  have hlen := pairSegs_length ([s.a] ++ (sortedParams s pts).map (paramPt s) ++ [s.b])
  rw [h] at hlen
  simp only [List.length_append, List.length_map, List.length_singleton] at hlen
  have hnil : sortedParams s pts = [] := by
    have : (sortedParams s pts).length = 0 := by omega
    exact List.eq_nil_of_length_eq_zero this
  rw [hnil]
  rfl

/-- C7: when the geometric split of an edge returns a single piece despite
a nonempty hits list (a hit inside the bounding box that is not on the
line), the edge is emitted as a single CorrectedEdge with its original
endpoints and attributes, and no node is synthesized. -/
theorem C7_degenerate_split (edges : List Row) (st : PassState) (r : Row)
    (h1 : hitsFor (detectForEdge edges st r) r ≠ [])
    (h2 : (splitSeg r.geometry (hitsFor (detectForEdge edges st r) r)).length = 1) :
    (processEdge edges st r).new_lines = st.new_lines ++ [[r]] ∧
    (processEdge edges st r).nodes = st.nodes := by
  have hdl := detectForEdge_nodes_lines edges st r
  have hsp := splitSeg_singleton r.geometry _ h2
  have hr : ({ r with geometry := r.geometry } : Row) = r := rfl
  simp [processEdge, h1, hsp, emitRows, hr, hdl.1, hdl.2]

/-- Witness for C7: rowH's bounding box contains the crossing (3/2,1/2) of
rowF and rowG, which is off rowH's line, so rowH has one hit but splits
into one piece and passes through unchanged. -/
theorem C7_degenerate_split_witness :
    (processEdge [rowF, rowG, rowH]
        (List.foldl (processEdge [rowF, rowG, rowH]) (initState [])
          [rowF, rowG]) rowH).new_lines =
      (List.foldl (processEdge [rowF, rowG, rowH]) (initState [])
        [rowF, rowG]).new_lines ++ [[rowH]] ∧
    (processEdge [rowF, rowG, rowH]
        (List.foldl (processEdge [rowF, rowG, rowH]) (initState [])
          [rowF, rowG]) rowH).nodes =
      (List.foldl (processEdge [rowF, rowG, rowH]) (initState [])
        [rowF, rowG]).nodes :=
  C7_degenerate_split [rowF, rowG, rowH] _ rowH (by decide) (by decide)

/-- C9 (evaluation at the failing input): the edge `(1, 2)` joined with
the traffic row `(1, 2, [0, 0])` is matched by the left merge — its speed
columns are populated with min 0, max 0, mean 0 — yet the count the code
reports (rows with `mean_speed > 0`) is 0 while the matched count is 1:
the reported fraction is not the fraction of edges successfully matched,
contradicting the code's own comment ("a Mapbox speed of 0 or more"). -/
theorem C9_code_eval :
    left_merge [⟨1, 2, 7⟩] (traffic_simplified [⟨1, 2, [0, 0]⟩]) =
      [{ road := ⟨1, 2, 7⟩, min_speed := some 0, max_speed := some 0,
         mean_speed := some 0 }] ∧
    matched_count (left_merge [⟨1, 2, 7⟩] (traffic_simplified [⟨1, 2, [0, 0]⟩])) = 1 ∧
    reported_matched (left_merge [⟨1, 2, 7⟩] (traffic_simplified [⟨1, 2, [0, 0]⟩])) = 0 := by
  decide

/-- C10: for every MultiLineString input `line_length` fails with
`NameError` — the unqualified name `line_length` its recursive call uses
is bound neither in the function's local scope nor at module scope — and
for every plain LineString input it returns a length, so the function is
total only on single LineStrings. -/
theorem C10_multilinestring_nameerror :
    (∀ (dist : Pt → Pt → ℚ) (parts : List (List Pt)),
      line_length dist (.multiLineString parts) =
        .error "NameError: name line_length is not defined") ∧
    (∀ (dist : Pt → Pt → ℚ) (coords : List Pt),
      line_length dist (.lineString coords) =
        .ok ((pairwiseL coords).foldl (fun acc ab => acc + dist ab.1 ab.2) 0)) := by
  constructor
  · intro dist parts
    have hres : name_resolves "line_length" = false := by decide
    simp [line_length, hres]
  · intro dist coords
    rfl

end GOSTnets
